import Mathlib

/-!
Shallow embedding of the `morse` module of `src/lib.rs` (crate
`secret_message`), together with proofs about its translation engine.

Strings are modelled as `List Char`.  The Rust code signals failure by
aborting (`unreachable!` in `Morse::from_str`, `.first().unwrap()` on an
empty filter result in `from_morse_array_to_char` and `word_to_morse`);
following the specification's error vocabulary, every such abort site is
totalised into an `Except MorseError` value:
`Morse::from_str` on a foreign token ↦ `InvalidSymbol`,
`from_morse_array_to_char` on a sequence absent from the table ↦
`UnknownSequence`, and the character lookup inside `word_to_morse` on an
unsupported character ↦ `UnknownCharacter`.
-/

/-- Morse symbols, after `enum Morse` in the source. -/
inductive Morse where
  | Dit
  | Dah
  | BaseSpace
  | LetterSpace
  | WordSpace
deriving DecidableEq

/-- Failure kinds of the translation engine; each variant marks exactly one
abort site of the source (see the module comment). -/
inductive MorseError where
  | UnknownCharacter
  | InvalidSymbol
  | UnknownSequence
deriving DecidableEq

/-- String representation of the morse symbols (`Morse::to_str`). -/
def Morse.to_str : Morse → List Char
  | .Dit => ['·']
  | .Dah => ['―']
  | .LetterSpace => [' ', ' ', ' ']
  | .WordSpace => [' ', ' ', ' ', ' ', ' ', ' ', ' ']
  | .BaseSpace => [' ']

/-- Parsing one token back (`Morse::from_str`); the `unreachable!` arm of the
source is the `InvalidSymbol` failure. -/
def Morse.from_str : List Char → Except MorseError Morse
  | ['·'] => .ok .Dit
  | ['―'] => .ok .Dah
  | [' '] => .ok .BaseSpace
  | [' ', ' ', ' '] => .ok .LetterSpace
  | [' ', ' ', ' ', ' ', ' ', ' ', ' '] => .ok .WordSpace
  | _ => .error .InvalidSymbol

/-- Duration of each symbol in `Dit` units (`Morse::len`). -/
def Morse.len : Morse → Nat
  | .Dit | .BaseSpace => 1
  | .Dah | .LetterSpace => 3
  | .WordSpace => 7

/-- The fixed character table (`CHAR_MORSE_MAP`), 37 entries in source order. -/
def CHAR_MORSE_MAP : List (Char × List Morse) := [
  (' ', [.WordSpace]),
  ('a', [.Dit, .Dah]),
  ('b', [.Dah, .Dit, .Dit, .Dit]),
  ('c', [.Dah, .Dit, .Dah, .Dit]),
  ('d', [.Dah, .Dit, .Dit]),
  ('e', [.Dit]),
  ('f', [.Dit, .Dit, .Dah, .Dit]),
  ('g', [.Dah, .Dah, .Dit]),
  ('h', [.Dit, .Dit, .Dit, .Dit]),
  ('i', [.Dit, .Dit]),
  ('j', [.Dit, .Dah, .Dah, .Dah]),
  ('k', [.Dah, .Dit, .Dah]),
  ('l', [.Dit, .Dah, .Dit, .Dit]),
  ('m', [.Dah, .Dah]),
  ('n', [.Dah, .Dit]),
  ('o', [.Dah, .Dah, .Dah]),
  ('p', [.Dit, .Dah, .Dah, .Dit]),
  ('q', [.Dah, .Dah, .Dit, .Dah]),
  ('r', [.Dit, .Dah, .Dit]),
  ('s', [.Dit, .Dit, .Dit]),
  ('t', [.Dah]),
  ('u', [.Dit, .Dit, .Dah]),
  ('v', [.Dit, .Dit, .Dit, .Dah]),
  ('w', [.Dit, .Dah, .Dah]),
  ('x', [.Dah, .Dit, .Dit, .Dah]),
  ('y', [.Dah, .Dit, .Dah, .Dah]),
  ('z', [.Dah, .Dah, .Dit, .Dit]),
  ('1', [.Dit, .Dah, .Dah, .Dah, .Dah]),
  ('2', [.Dit, .Dit, .Dah, .Dah, .Dah]),
  ('3', [.Dit, .Dit, .Dit, .Dah, .Dah]),
  ('4', [.Dit, .Dit, .Dit, .Dit, .Dah]),
  ('5', [.Dit, .Dit, .Dit, .Dit, .Dit]),
  ('6', [.Dah, .Dit, .Dit, .Dit, .Dit]),
  ('7', [.Dah, .Dah, .Dit, .Dit, .Dit]),
  ('8', [.Dah, .Dah, .Dah, .Dit, .Dit]),
  ('9', [.Dah, .Dah, .Dah, .Dah, .Dit]),
  ('0', [.Dah, .Dah, .Dah, .Dah, .Dah])]

/-- Helper of the split scanner: prepend a character to the piece currently
being built (the head of the piece list). -/
def consHead (c : Char) : List (List Char) → List (List Char)
  | [] => [[c]]
  | p :: ps => (c :: p) :: ps

/-- Scanner for Rust `str::split` with a non-empty pattern: cut the input at
each leftmost, non-overlapping occurrence of `sep`.  The `fuel` argument only
makes the recursion structural; `fuel = s.length` always suffices because
every step consumes at least one character. -/
def splitGo (sep : List Char) : Nat → List Char → List (List Char)
  | _, [] => [[]]
  | 0, s => [s]
  | fuel + 1, c :: cs =>
    if sep ≠ [] ∧ sep <+: (c :: cs) then
      [] :: splitGo sep fuel ((c :: cs).drop sep.length)
    else
      consHead c (splitGo sep fuel cs)

/-- Rust `str::split` on the pattern `sep`; e.g. splitting `"a b"` on `" "`
gives `["a", "b"]`, and splitting `""` on any pattern gives `[""]`. -/
def splitOnSep (sep s : List Char) : List (List Char) :=
  splitGo sep s.length s

/-- Rust `[String]::join(sep)`. -/
def joinSep (sep : List Char) : List (List Char) → List Char
  | [] => []
  | [p] => p
  | p :: q :: r => p ++ sep ++ joinSep sep (q :: r)

/-- Effectful map: evaluates left to right and stops at the first failure,
exactly as the source's loops and iterator pipelines abort at the first
failing element. -/
def mapE {α β : Type} (f : α → Except MorseError β) : List α → Except MorseError (List β)
  | [] => .ok []
  | a :: as =>
    match f a with
    | .error e => .error e
    | .ok b =>
      match mapE f as with
      | .error e => .error e
      | .ok bs => .ok (b :: bs)

/-- Success test for `Except` results. -/
def isOkE {α : Type} : Except MorseError α → Bool
  | .ok _ => true
  | .error _ => false

instance {ε α : Type} [DecidableEq ε] [DecidableEq α] : DecidableEq (Except ε α) := fun x y =>
  match x, y with
  | .ok a, .ok b =>
    if h : a = b then .isTrue (congrArg Except.ok h)
    else .isFalse (fun hc => h (Except.ok.inj hc))
  | .error e, .error f =>
    if h : e = f then .isTrue (congrArg Except.error h)
    else .isFalse (fun hc => h (Except.error.inj hc))
  | .ok _, .error _ => .isFalse (fun hc => Except.noConfusion hc)
  | .error _, .ok _ => .isFalse (fun hc => Except.noConfusion hc)

/-- Converts a morse letter to its string representation
(`morse_char_to_str`). -/
def morse_char_to_str (c : List Morse) : List Char :=
  joinSep Morse.BaseSpace.to_str (c.map Morse.to_str)

/-- Takes a string of a morse letter and returns it as a `Morse` list
(`from_morse_str_to_morse_array`). -/
def from_morse_str_to_morse_array (msg : List Char) : Except MorseError (List Morse) :=
  mapE Morse.from_str (splitOnSep Morse.BaseSpace.to_str msg)

/-- Sequence lookup (`from_morse_array_to_char`); `.first().unwrap()` on the
empty filter result is the `UnknownSequence` failure. -/
def from_morse_array_to_char (morse : List Morse) : Except MorseError Char :=
  match ((CHAR_MORSE_MAP.filter (fun m => m.2 == morse)).map Prod.fst).head? with
  | some c => .ok c
  | none => .error .UnknownSequence

/-- Character lookup performed inside `word_to_morse`; `.first().unwrap()` on
the empty filter result is the `UnknownCharacter` failure. -/
def lookup_by_char (c : Char) : Except MorseError (List Morse) :=
  match ((CHAR_MORSE_MAP.filter (fun k => k.1 == c)).map Prod.snd).head? with
  | some seq => .ok seq
  | none => .error .UnknownCharacter

/-- Encoding of one word (`word_to_morse`). -/
def word_to_morse (word : List Char) : Except MorseError (List Char) :=
  match mapE lookup_by_char word with
  | .error e => .error e
  | .ok seqs => .ok (joinSep Morse.LetterSpace.to_str (seqs.map morse_char_to_str))

/-- Decoding of one morse letter: the two chained stages applied to every
letter inside `morseword_to_alphabet`. -/
def letter_decode (l : List Char) : Except MorseError (List Char) :=
  match from_morse_str_to_morse_array l with
  | .error e => .error e
  | .ok arr =>
    match from_morse_array_to_char arr with
    | .error e => .error e
    | .ok c => .ok [c]

/-- Decoding of one morse word (`morseword_to_alphabet`). -/
def morseword_to_alphabet (morseword : List Char) : Except MorseError (List Char) :=
  match mapE letter_decode (splitOnSep Morse.LetterSpace.to_str morseword) with
  | .error e => .error e
  | .ok word => .ok (joinSep [] word)

/-- Public encode entry point (`translate_to_morse`). -/
def translate_to_morse (msg : List Char) : Except MorseError (List Char) :=
  match mapE word_to_morse (splitOnSep [' '] msg) with
  | .error e => .error e
  | .ok words => .ok (joinSep Morse.WordSpace.to_str words)

/-- Public decode entry point (`translate_from_morse`). -/
def translate_from_morse (msg : List Char) : Except MorseError (List Char) :=
  match mapE morseword_to_alphabet (splitOnSep Morse.WordSpace.to_str msg) with
  | .error e => .error e
  | .ok words => .ok (joinSep [' '] words)

/-- The 36 non-space supported characters: lowercase letters and digits. -/
def lowerAlnum : List Char :=
  ['a', 'b', 'c', 'd', 'e', 'f', 'g', 'h', 'i', 'j', 'k', 'l', 'm',
   'n', 'o', 'p', 'q', 'r', 's', 't', 'u', 'v', 'w', 'x', 'y', 'z',
   '0', '1', '2', '3', '4', '5', '6', '7', '8', '9']

/-- The characters carried by the code table. -/
def supported_chars : List Char := CHAR_MORSE_MAP.map Prod.fst

/-- Whether the string contains two consecutive spaces. -/
def hasDoubledSpace : List Char → Bool
  | c :: d :: t => (c == ' ' && d == ' ') || hasDoubledSpace (d :: t)
  | _ => false

/-- The input class named by the round-trip claim: only lowercase letters,
digits and single spaces, with no leading, trailing or doubled space. -/
def validMsg (s : List Char) : Prop :=
  (∀ c ∈ s, c ∈ lowerAlnum ∨ c = ' ') ∧
  s.head? ≠ some ' ' ∧ s.getLast? ≠ some ' ' ∧ hasDoubledSpace s = false

instance (s : List Char) : Decidable (validMsg s) := by
  unfold validMsg
  infer_instance

/-- The table sequence of a supported character (meaningful only on
`supported_chars`, where the filter in `lookup_by_char` is nonempty). -/
def charSeq (c : Char) : List Morse :=
  (((CHAR_MORSE_MAP.filter (fun k => k.1 == c)).map Prod.snd).head?).getD []

/-- Rendered morse string of one supported character. -/
def charStr (c : Char) : List Char := morse_char_to_str (charSeq c)

/-- Rendered morse string of one word of supported characters. -/
def wordStr (w : List Char) : List Char :=
  joinSep Morse.LetterSpace.to_str (w.map charStr)

/-- Number of spaces at the head of the string. -/
def leadSpaces : List Char → Nat
  | [] => 0
  | c :: cs => if c = ' ' then leadSpaces cs + 1 else 0

/-- Length of the longest run of consecutive spaces in the string. -/
def maxSpaceRun : List Char → Nat
  | [] => 0
  | c :: cs => max (leadSpaces (c :: cs)) (maxSpaceRun cs)

/-- Pieces that a scan for the separator `List.replicate k ' '` cannot cut:
nonempty, not starting or ending with a space, and without a run of `k`
consecutive spaces. -/
def GoodPiece (k : Nat) (p : List Char) : Prop :=
  p ≠ [] ∧ p.head? ≠ some ' ' ∧ p.getLast? ≠ some ' ' ∧ maxSpaceRun p < k

/-! Basic facts about the split scanner and the joiner. -/

theorem consHead_cons (c : Char) (p : List Char) (ps : List (List Char)) :
    consHead c (p :: ps) = (c :: p) :: ps := rfl

theorem consHead_ne_nil (c : Char) (L : List (List Char)) : consHead c L ≠ [] := by
  cases L <;> simp [consHead]

theorem splitGo_canon (sep : List Char) :
    ∀ n s, s.length ≤ n → splitGo sep n s = splitGo sep s.length s := by
  intro n
  induction n using Nat.strong_induction_on with
  | _ n ih =>
    intro s hs
    cases n with
    | zero =>
      have h0 : s = [] := List.length_eq_zero.mp (Nat.le_zero.mp hs)
      subst h0
      rfl
    | succ n' =>
      cases s with
      | nil => rfl
      | cons c cs =>
        show splitGo sep (n' + 1) (c :: cs) = splitGo sep (cs.length + 1) (c :: cs)
        simp only [splitGo]
        simp only [List.length_cons] at hs
        by_cases h : sep ≠ [] ∧ sep <+: (c :: cs)
        · rw [if_pos h, if_pos h]
          have hsep : 1 ≤ sep.length := by
            cases hsx : sep with
            | nil => exact absurd hsx h.1
            | cons x xs => simp
          have hd : ((c :: cs).drop sep.length).length = cs.length + 1 - sep.length := by
            simp [List.length_drop]
          rw [ih n' (by omega) _ (by omega),
            ih cs.length (by omega) _ (by omega)]
        · rw [if_neg h, if_neg h]
          rw [ih n' (by omega) cs (by omega)]

theorem splitGo_fuel (sep : List Char) :
    ∀ n₁ n₂ s, s.length ≤ n₁ → s.length ≤ n₂ → splitGo sep n₁ s = splitGo sep n₂ s := by
  intro n₁ n₂ s h1 h2
  rw [splitGo_canon sep n₁ s h1, splitGo_canon sep n₂ s h2]

theorem splitOnSep_cons_pos (sep : List Char) (c : Char) (cs : List Char)
    (hne : sep ≠ []) (h : sep <+: (c :: cs)) :
    splitOnSep sep (c :: cs) = [] :: splitOnSep sep ((c :: cs).drop sep.length) := by
  have hsep : 1 ≤ sep.length := by
    cases hs : sep with
    | nil => exact absurd hs hne
    | cons x xs => simp
  show splitGo sep (cs.length + 1) (c :: cs) = _
  simp only [splitGo]
  rw [if_pos ⟨hne, h⟩]
  congr 1
  apply splitGo_fuel
  · simp only [List.length_drop, List.length_cons]
    omega
  · exact le_rfl

theorem splitOnSep_cons_neg (sep : List Char) (c : Char) (cs : List Char)
    (h : ¬ sep <+: (c :: cs)) :
    splitOnSep sep (c :: cs) = consHead c (splitOnSep sep cs) := by
  show splitGo sep (cs.length + 1) (c :: cs) = _
  simp only [splitGo]
  rw [if_neg (fun hc => h hc.2)]
  rfl

theorem splitGo_ne_nil (sep : List Char) : ∀ fuel s, splitGo sep fuel s ≠ [] := by
  intro fuel
  induction fuel with
  | zero => intro s; cases s <;> simp [splitGo]
  | succ n ih =>
    intro s
    cases s with
    | nil => simp [splitGo]
    | cons c cs =>
      simp only [splitGo]
      by_cases h : sep ≠ [] ∧ sep <+: (c :: cs)
      · rw [if_pos h]; simp
      · rw [if_neg h]; exact consHead_ne_nil c _

theorem splitOnSep_ne_nil (sep s : List Char) : splitOnSep sep s ≠ [] :=
  splitGo_ne_nil sep s.length s

theorem joinSep_cons₂ (sep p q : List Char) (r : List (List Char)) :
    joinSep sep (p :: q :: r) = p ++ sep ++ joinSep sep (q :: r) := rfl

theorem joinSep_consHead (sep : List Char) (c : Char) (L : List (List Char))
    (hL : L ≠ []) : joinSep sep (consHead c L) = c :: joinSep sep L := by
  cases L with
  | nil => exact absurd rfl hL
  | cons p ps =>
    cases ps with
    | nil => rfl
    | cons q r => simp [consHead, joinSep_cons₂, List.cons_append]

theorem joinSep_splitOnSep (sep : List Char) (hsep : sep ≠ []) :
    ∀ n s, s.length ≤ n → joinSep sep (splitOnSep sep s) = s := by
  intro n
  induction n with
  | zero =>
    intro s hs
    have h0 : s = [] := List.length_eq_zero.mp (Nat.le_zero.mp hs)
    subst h0
    rfl
  | succ n ih =>
    intro s hs
    cases s with
    | nil => rfl
    | cons c cs =>
      by_cases h : sep <+: (c :: cs)
      · rw [splitOnSep_cons_pos sep c cs hsep h]
        obtain ⟨t, ht⟩ := h
        have hdrop : (c :: cs).drop sep.length = t := by
          rw [← ht]; exact List.drop_left sep t
        rw [hdrop]
        obtain ⟨r, rs, hr⟩ : ∃ r rs, splitOnSep sep t = r :: rs := by
          cases hsplit : splitOnSep sep t with
          | nil => exact absurd hsplit (splitOnSep_ne_nil sep t)
          | cons r rs => exact ⟨r, rs, rfl⟩
        have hlen : t.length ≤ n := by
          have := congrArg List.length ht
          simp only [List.length_append, List.length_cons] at this
          have h1 : 1 ≤ sep.length := by
            cases hsx : sep with
            | nil => exact absurd hsx hsep
            | cons x xs => simp
          simp only [List.length_cons] at hs
          omega
        rw [hr, joinSep_cons₂, ← hr, ih t hlen, List.nil_append, ht]
      · rw [splitOnSep_cons_neg sep c cs h,
          joinSep_consHead sep c _ (splitOnSep_ne_nil sep cs)]
        simp only [List.length_cons] at hs
        rw [ih cs (by omega)]

theorem mem_joinSep (sep : List Char) :
    ∀ ps c, c ∈ joinSep sep ps → (∃ p ∈ ps, c ∈ p) ∨ c ∈ sep := by
  intro ps
  induction ps with
  | nil => intro c hc; simp [joinSep] at hc
  | cons p tail ih =>
    intro c hc
    cases tail with
    | nil => exact Or.inl ⟨p, by simp, hc⟩
    | cons q r =>
      rw [joinSep_cons₂] at hc
      rcases List.mem_append.mp hc with h1 | h2
      · rcases List.mem_append.mp h1 with ha | hb
        · exact Or.inl ⟨p, by simp, ha⟩
        · exact Or.inr hb
      · rcases ih c h2 with ⟨x, hx, hcx⟩ | hside
        · exact Or.inl ⟨x, by simp [hx], hcx⟩
        · exact Or.inr hside

theorem joinSep_nil_map_singleton :
    ∀ w : List Char, joinSep [] (w.map (fun c => [c])) = w := by
  intro w
  induction w with
  | nil => rfl
  | cons c w' ih =>
    cases w' with
    | nil => rfl
    | cons d t =>
      simp only [List.map_cons] at ih ⊢
      rw [joinSep_cons₂, ih]
      simp

/-! Space-run accounting: where a scan for `List.replicate k ' '` can cut. -/

theorem leadSpaces_le_maxSpaceRun : ∀ s, leadSpaces s ≤ maxSpaceRun s := by
  intro s
  cases s with
  | nil => exact le_rfl
  | cons c cs => exact le_max_left _ _

theorem maxSpaceRun_suffix : ∀ s t : List Char, t <:+ s → maxSpaceRun t ≤ maxSpaceRun s := by
  intro s
  induction s with
  | nil =>
    intro t ht
    have h0 := List.suffix_nil.mp ht
    subst h0
    exact le_rfl
  | cons c cs ih =>
    intro t ht
    rcases List.suffix_cons_iff.mp ht with h | h
    · subst h; exact le_rfl
    · exact le_trans (ih t h) (le_max_right _ _)

theorem replicate_prefix_leadSpaces :
    ∀ k t, (List.replicate k ' ') <+: t → k ≤ leadSpaces t := by
  intro k
  induction k with
  | zero => intro t _; exact Nat.zero_le _
  | succ k ih =>
    intro t ht
    obtain ⟨y, hy⟩ := ht
    rw [List.replicate_succ, List.cons_append] at hy
    cases t with
    | nil => simp at hy
    | cons c cs =>
      injection hy with h1 h2
      subst h1
      have hk : k ≤ leadSpaces cs := ih cs ⟨y, h2⟩
      have h3 : leadSpaces (' ' :: cs) = leadSpaces cs + 1 := by simp [leadSpaces]
      omega

theorem maxSpaceRun_no_replicate (k : Nat) (s : List Char) (h : maxSpaceRun s < k) :
    ∀ t, t <:+ s → ¬ (List.replicate k ' ') <+: t := by
  intro t hts hpre
  have h1 := replicate_prefix_leadSpaces k t hpre
  have h2 := leadSpaces_le_maxSpaceRun t
  have h3 := maxSpaceRun_suffix s t hts
  omega

theorem getLast?_replicate_space (n : Nat) :
    (List.replicate (n + 1) ' ').getLast? = some ' ' := by
  induction n with
  | zero => rfl
  | succ m ih =>
    rw [List.replicate_succ ' ' (m + 1), List.replicate_succ ' ' m,
      List.getLast?_cons_cons, ← List.replicate_succ ' ' m]
    exact ih

theorem getLast?_of_suffix (t s : List Char) (ht : t ≠ []) (h : t <:+ s) :
    s.getLast? = t.getLast? := by
  obtain ⟨u, hu⟩ := h
  rw [← hu]
  exact List.getLast?_append_of_ne_nil u ht

theorem head?_append_left (A B : List Char) (hA : A ≠ []) :
    (A ++ B).head? = A.head? := by
  cases A with
  | nil => exact absurd rfl hA
  | cons c cs => rfl

theorem leadSpaces_cons_space (X : List Char) :
    leadSpaces (' ' :: X) = leadSpaces X + 1 := by simp [leadSpaces]

theorem leadSpaces_cons_other (c : Char) (X : List Char) (hc : c ≠ ' ') :
    leadSpaces (c :: X) = 0 := by simp [leadSpaces, hc]

theorem leadSpaces_append (A B : List Char) (hA : A ≠ [])
    (hlast : A.getLast? ≠ some ' ') : leadSpaces (A ++ B) = leadSpaces A := by
  induction A with
  | nil => exact absurd rfl hA
  | cons c A' ih =>
    cases A' with
    | nil =>
      have hc : c ≠ ' ' := fun h => hlast (by rw [h]; rfl)
      rw [List.cons_append, List.nil_append, leadSpaces_cons_other c B hc,
        leadSpaces_cons_other c [] hc]
    | cons d A'' =>
      have h2 : (d :: A'').getLast? = (c :: d :: A'').getLast? :=
        (List.getLast?_cons_cons).symm
      have ih' := ih (by simp) (by rw [h2]; exact hlast)
      show leadSpaces (c :: ((d :: A'') ++ B)) = leadSpaces (c :: d :: A'')
      by_cases hc : c = ' '
      · subst hc
        rw [leadSpaces_cons_space, leadSpaces_cons_space, ih']
      · rw [leadSpaces_cons_other _ _ hc, leadSpaces_cons_other _ _ hc]

theorem maxSpaceRun_append (A B : List Char) (hlast : A.getLast? ≠ some ' ') :
    maxSpaceRun (A ++ B) ≤ max (maxSpaceRun A) (maxSpaceRun B) := by
  induction A with
  | nil =>
    show maxSpaceRun B ≤ max (maxSpaceRun []) (maxSpaceRun B)
    exact le_max_right _ _
  | cons c A' ih =>
    show maxSpaceRun (c :: (A' ++ B)) ≤ _
    have hx : maxSpaceRun (c :: (A' ++ B)) =
        max (leadSpaces (c :: (A' ++ B))) (maxSpaceRun (A' ++ B)) := rfl
    rw [hx]
    apply max_le
    · have hl : leadSpaces ((c :: A') ++ B) = leadSpaces (c :: A') :=
        leadSpaces_append (c :: A') B (by simp) hlast
      have h2 : (c :: (A' ++ B)) = (c :: A') ++ B := rfl
      rw [h2, hl]
      exact le_trans (leadSpaces_le_maxSpaceRun _) (le_max_left _ _)
    · cases A' with
      | nil =>
        show maxSpaceRun ([] ++ B) ≤ _
        rw [List.nil_append]
        exact le_max_right _ _
      | cons d A'' =>
        have hlast' : (d :: A'').getLast? ≠ some ' ' := by
          intro hcontra
          apply hlast
          rw [List.getLast?_cons_cons]
          exact hcontra
        have ihx := ih hlast'
        exact le_trans ihx
          (max_le_max (maxSpaceRun_suffix (c :: d :: A'') (d :: A'')
            (List.suffix_cons c (d :: A''))) le_rfl)

theorem leadSpaces_replicate_append (j : Nat) (B : List Char) :
    leadSpaces (List.replicate j ' ' ++ B) = j + leadSpaces B := by
  induction j with
  | zero => simp
  | succ m ih =>
    rw [List.replicate_succ, List.cons_append, leadSpaces_cons_space, ih]
    omega

theorem maxSpaceRun_replicate_append (j : Nat) (B : List Char)
    (hB : B.head? ≠ some ' ') :
    maxSpaceRun (List.replicate j ' ' ++ B) ≤ max j (maxSpaceRun B) := by
  have hlB : leadSpaces B = 0 := by
    cases B with
    | nil => rfl
    | cons c cs =>
      have hc : c ≠ ' ' := fun h => hB (by rw [h]; rfl)
      exact leadSpaces_cons_other c cs hc
  induction j with
  | zero =>
    rw [show List.replicate 0 ' ' = ([] : List Char) from rfl, List.nil_append]
    exact le_max_right _ _
  | succ m ih =>
    rw [List.replicate_succ, List.cons_append]
    have hx : maxSpaceRun (' ' :: (List.replicate m ' ' ++ B)) =
        max (leadSpaces (' ' :: (List.replicate m ' ' ++ B)))
          (maxSpaceRun (List.replicate m ' ' ++ B)) := rfl
    rw [hx]
    apply max_le
    · rw [leadSpaces_cons_space, leadSpaces_replicate_append, hlB]
      exact le_trans (by omega) (le_max_left (m + 1) (maxSpaceRun B))
    · exact le_trans ih (max_le_max (by omega) le_rfl)

theorem replicate_space_ne_nil (k : Nat) (hk : 0 < k) :
    List.replicate k ' ' ≠ [] := by
  intro h
  have := congrArg List.length h
  simp at this
  omega

/-! Where the scanner cuts: on good pieces, separator occurrences are exactly
the joints introduced by `joinSep`. -/

theorem splitOnSep_no_occur (sep p : List Char)
    (hno : ∀ t, t <:+ p → ¬ sep <+: t) :
    splitOnSep sep p = [p] := by
  induction p with
  | nil => rfl
  | cons c cs ih =>
    have h1 : ¬ sep <+: (c :: cs) := hno (c :: cs) (List.suffix_refl _)
    rw [splitOnSep_cons_neg sep c cs h1,
      ih (fun t ht => hno t (ht.trans (List.suffix_cons c cs)))]
    rfl

theorem splitOnSep_append_sep (sep rest : List Char) (hsep : sep ≠ []) :
    ∀ p : List Char,
      (∀ t, t <:+ p → t ≠ [] → ¬ sep <+: (t ++ (sep ++ rest))) →
      splitOnSep sep (p ++ (sep ++ rest)) = p :: splitOnSep sep rest := by
  intro p
  induction p with
  | nil =>
    intro _
    rw [List.nil_append]
    cases hs : sep with
    | nil => exact absurd hs hsep
    | cons s0 sep' =>
      subst hs
      rw [List.cons_append]
      rw [splitOnSep_cons_pos (s0 :: sep') s0 (sep' ++ rest) (by simp)
        (by rw [← List.cons_append]; exact List.prefix_append _ _)]
      congr 1
      rw [← List.cons_append, List.drop_left]
  | cons c p' ih =>
    intro hno
    rw [List.cons_append]
    have h1 : ¬ sep <+: (c :: (p' ++ (sep ++ rest))) := by
      intro hc
      apply hno (c :: p') (List.suffix_refl _) (by simp)
      rw [List.cons_append]
      exact hc
    rw [splitOnSep_cons_neg sep c _ h1,
      ih (fun t ht htne => hno t (ht.trans (List.suffix_cons c p')) htne)]
    rfl

theorem goodPiece_no_cut (k : Nat) (_hk : 0 < k) (p X : List Char)
    (hg : GoodPiece k p) :
    ∀ t, t <:+ p → t ≠ [] → ¬ (List.replicate k ' ') <+: (t ++ X) := by
  intro t hts htne hpre
  obtain ⟨hp1, hp2, hp3, hp4⟩ := hg
  rcases le_or_lt k t.length with hlen | hlen
  · apply maxSpaceRun_no_replicate k p hp4 t hts
    obtain ⟨y, hy⟩ := hpre
    have h1 : (List.replicate k ' ' ++ y).take k = List.replicate k ' ' := by
      have := List.take_left (List.replicate k ' ') y
      rwa [List.length_replicate] at this
    have h2 : (t ++ X).take k = t.take k := by
      rw [List.take_append_eq_append_take]
      have h0 : k - t.length = 0 := by omega
      rw [h0]
      simp
    rw [hy, h2] at h1
    rw [← h1]
    exact List.take_prefix k t
  · obtain ⟨y, hy⟩ := hpre
    have h1 : (t ++ X).take t.length = t := List.take_left t X
    have h2 : (List.replicate k ' ' ++ y).take t.length =
        List.replicate t.length ' ' := by
      rw [List.take_append_eq_append_take]
      have hz : t.length - (List.replicate k ' ').length = 0 := by
        rw [List.length_replicate]; omega
      rw [hz]
      simp [List.take_replicate, Nat.min_eq_left (le_of_lt hlen)]
    rw [hy] at h2
    have ht : t = List.replicate t.length ' ' := h1.symm.trans h2
    obtain ⟨m, hm⟩ : ∃ m, t.length = m + 1 := by
      cases t with
      | nil => exact absurd rfl htne
      | cons a b => exact ⟨b.length, rfl⟩
    have hlastt : t.getLast? = some ' ' := by
      have hcongr := congrArg List.getLast? ht
      rw [hm] at hcongr
      exact hcongr.trans (getLast?_replicate_space m)
    have hps := getLast?_of_suffix t p htne hts
    exact hp3 (hps.trans hlastt)

theorem splitOnSep_joinSep (k : Nat) (hk : 0 < k) :
    ∀ ps : List (List Char), ps ≠ [] → (∀ p ∈ ps, GoodPiece k p) →
      splitOnSep (List.replicate k ' ') (joinSep (List.replicate k ' ') ps) = ps := by
  intro ps
  induction ps with
  | nil => intro h _; exact absurd rfl h
  | cons p tail ih =>
    intro _ hall
    have hp := hall p (by simp)
    cases tail with
    | nil =>
      show splitOnSep _ p = [p]
      exact splitOnSep_no_occur _ p (maxSpaceRun_no_replicate k p hp.2.2.2)
    | cons q r =>
      rw [joinSep_cons₂, List.append_assoc]
      rw [splitOnSep_append_sep _ _ (replicate_space_ne_nil k hk) p
        (goodPiece_no_cut k hk p _ hp)]
      rw [ih (by simp) (fun x hx => hall x (by simp [hx]))]

theorem goodPiece_joinSep (j k : Nat) (_hj : 0 < j) (hjk : j < k) :
    ∀ ps : List (List Char), ps ≠ [] → (∀ p ∈ ps, GoodPiece k p) →
      GoodPiece k (joinSep (List.replicate j ' ') ps) := by
  intro ps
  induction ps with
  | nil => intro h _; exact absurd rfl h
  | cons p tail ih =>
    intro _ hall
    cases tail with
    | nil => exact hall p (by simp)
    | cons q r =>
      have hp := hall p (by simp)
      have hrest : GoodPiece k (joinSep (List.replicate j ' ') (q :: r)) :=
        ih (by simp) (fun x hx => hall x (by simp [hx]))
      obtain ⟨hp1, hp2, hp3, hp4⟩ := hp
      obtain ⟨hr1, hr2, hr3, hr4⟩ := hrest
      rw [joinSep_cons₂]
      refine ⟨?_, ?_, ?_, ?_⟩
      · simp [hp1]
      · rw [List.append_assoc, head?_append_left p _ hp1]
        exact hp2
      · rw [List.getLast?_append_of_ne_nil _ hr1]
        exact hr3
      · rw [List.append_assoc]
        have h1 := maxSpaceRun_append p
          (List.replicate j ' ' ++ joinSep (List.replicate j ' ') (q :: r)) hp3
        have h2 := maxSpaceRun_replicate_append j
          (joinSep (List.replicate j ' ') (q :: r)) hr2
        have h3 := le_trans h1 (max_le_max le_rfl h2)
        exact lt_of_le_of_lt h3 (max_lt hp4 (max_lt hjk hr4))

/-! Behaviour of the effectful map. -/

theorem mapE_ok_all {α β : Type} (f : α → Except MorseError β) (g : α → β) :
    ∀ l : List α, (∀ a ∈ l, f a = .ok (g a)) → mapE f l = .ok (l.map g) := by
  intro l
  induction l with
  | nil => intro _; rfl
  | cons a as ih =>
    intro hall
    have ha : f a = .ok (g a) := hall a (by simp)
    have has : mapE f as = .ok (as.map g) := ih (fun x hx => hall x (by simp [hx]))
    simp [mapE, ha, has]

theorem mapE_shape {α β : Type} (f : α → Except MorseError β) (e₀ : MorseError) :
    ∀ l : List α, (∀ a ∈ l, (∃ b, f a = .ok b) ∨ f a = .error e₀) →
      (∃ bs, mapE f l = .ok bs) ∨ mapE f l = .error e₀ := by
  intro l
  induction l with
  | nil => intro _; exact Or.inl ⟨[], rfl⟩
  | cons a as ih =>
    intro hall
    rcases hall a (by simp) with ⟨b, hb⟩ | hb
    · rcases ih (fun x hx => hall x (by simp [hx])) with ⟨bs, hbs⟩ | hbs
      · exact Or.inl ⟨b :: bs, by simp [mapE, hb, hbs]⟩
      · exact Or.inr (by simp [mapE, hb, hbs])
    · exact Or.inr (by simp [mapE, hb])

theorem mapE_first_error {α β : Type} (f : α → Except MorseError β) (e₀ : MorseError) :
    ∀ l : List α, (∀ a ∈ l, (∃ b, f a = .ok b) ∨ f a = .error e₀) →
      (∃ a ∈ l, f a = .error e₀) → mapE f l = .error e₀ := by
  intro l
  induction l with
  | nil => intro _ h; simp at h
  | cons a as ih =>
    intro hall hex
    rcases hall a (by simp) with ⟨b, hb⟩ | hb
    · obtain ⟨x, hx, hfx⟩ := hex
      rcases List.mem_cons.mp hx with rfl | hxs
      · rw [hb] at hfx
        exact absurd hfx (by simp)
      · have hrec : mapE f as = .error e₀ :=
          ih (fun z hz => hall z (by simp [hz])) ⟨x, hxs, hfx⟩
        simp [mapE, hb, hrec]
    · simp [mapE, hb]

/-! Facts about the 36 letter and digit entries of the table, checked by
evaluation. -/

theorem charSeq_facts :
    ∀ c ∈ lowerAlnum,
      lookup_by_char c = .ok (charSeq c) ∧ charSeq c ≠ [] ∧
      (∀ m ∈ charSeq c, m = Morse.Dit ∨ m = Morse.Dah) ∧
      from_morse_array_to_char (charSeq c) = .ok c := by decide

theorem supported_chars_class :
    ∀ x ∈ supported_chars, x ∈ lowerAlnum ∨ x = ' ' := by decide

theorem glyph_good (m : Morse) (hm : m = Morse.Dit ∨ m = Morse.Dah) (k : Nat)
    (hk : 0 < k) : GoodPiece k (Morse.to_str m) := by
  rcases hm with rfl | rfl
  · refine ⟨by decide, by decide, by decide, ?_⟩
    have h0 : maxSpaceRun (Morse.to_str Morse.Dit) = 0 := by decide
    omega
  · refine ⟨by decide, by decide, by decide, ?_⟩
    have h0 : maxSpaceRun (Morse.to_str Morse.Dah) = 0 := by decide
    omega

theorem charStr_good (c : Char) (hc : c ∈ lowerAlnum) (k : Nat) (hk : 1 < k) :
    GoodPiece k (charStr c) := by
  have hfacts := charSeq_facts c hc
  have hne := hfacts.2.1
  have hdd := hfacts.2.2.1
  have hrw : charStr c = joinSep (List.replicate 1 ' ') ((charSeq c).map Morse.to_str) := rfl
  rw [hrw]
  apply goodPiece_joinSep 1 k (by omega) hk
  · simp [hne]
  · intro p hp
    obtain ⟨m, hm, rfl⟩ := List.mem_map.mp hp
    exact glyph_good m (hdd m hm) k (by omega)

theorem wordStr_good (w : List Char) (hw : w ≠ []) (hall : ∀ c ∈ w, c ∈ lowerAlnum)
    (k : Nat) (hk : 3 < k) : GoodPiece k (wordStr w) := by
  have hrw : wordStr w = joinSep (List.replicate 3 ' ') (w.map charStr) := rfl
  rw [hrw]
  apply goodPiece_joinSep 3 k (by omega) hk
  · simp [hw]
  · intro p hp
    obtain ⟨c, hc, rfl⟩ := List.mem_map.mp hp
    exact charStr_good c (hall c hc) k (by omega)

theorem mapE_map_ok {α β γ : Type} (h : α → β) (f : β → Except MorseError γ)
    (g : α → γ) :
    ∀ l : List α, (∀ a ∈ l, f (h a) = .ok (g a)) → mapE f (l.map h) = .ok (l.map g) := by
  intro l
  induction l with
  | nil => intro _; rfl
  | cons a as ih =>
    intro hall
    simp [mapE, hall a (by simp), ih (fun x hx => hall x (by simp [hx]))]

theorem from_str_to_str (m : Morse) : Morse.from_str (Morse.to_str m) = .ok m := by
  cases m <;> rfl

/-! Computation of encode and decode on well-formed inputs. -/

theorem word_to_morse_ok (w : List Char) (hall : ∀ c ∈ w, c ∈ lowerAlnum) :
    word_to_morse w = .ok (wordStr w) := by
  have hmap : mapE lookup_by_char w = .ok (w.map charSeq) :=
    mapE_ok_all lookup_by_char charSeq w (fun c hc => (charSeq_facts c (hall c hc)).1)
  simp [word_to_morse, hmap, wordStr, List.map_map]
  rfl

theorem from_morse_str_ok (seq : List Morse) (hne : seq ≠ [])
    (hdd : ∀ m ∈ seq, m = Morse.Dit ∨ m = Morse.Dah) :
    from_morse_str_to_morse_array (morse_char_to_str seq) = .ok seq := by
  have hsplit : splitOnSep (List.replicate 1 ' ')
      (joinSep (List.replicate 1 ' ') (seq.map Morse.to_str)) = seq.map Morse.to_str := by
    apply splitOnSep_joinSep 1 (by omega)
    · simp [hne]
    · intro p hp
      obtain ⟨m, hm, rfl⟩ := List.mem_map.mp hp
      exact glyph_good m (hdd m hm) 1 (by omega)
  have hrw : from_morse_str_to_morse_array (morse_char_to_str seq) =
      mapE Morse.from_str (splitOnSep (List.replicate 1 ' ')
        (joinSep (List.replicate 1 ' ') (seq.map Morse.to_str))) := rfl
  rw [hrw, hsplit]
  have hm : mapE Morse.from_str (seq.map Morse.to_str) = .ok (seq.map id) :=
    mapE_map_ok Morse.to_str Morse.from_str id seq (fun m _ => from_str_to_str m)
  rw [hm, List.map_id]

theorem letter_decode_charStr (c : Char) (hc : c ∈ lowerAlnum) :
    letter_decode (charStr c) = .ok [c] := by
  have hfacts := charSeq_facts c hc
  have h1 : from_morse_str_to_morse_array (charStr c) = .ok (charSeq c) :=
    from_morse_str_ok (charSeq c) hfacts.2.1 hfacts.2.2.1
  simp [letter_decode, h1, hfacts.2.2.2]

theorem morseword_to_alphabet_ok (w : List Char) (hw : w ≠ [])
    (hall : ∀ c ∈ w, c ∈ lowerAlnum) :
    morseword_to_alphabet (wordStr w) = .ok w := by
  have hsplit : splitOnSep Morse.LetterSpace.to_str (wordStr w) = w.map charStr := by
    have h3 : Morse.LetterSpace.to_str = List.replicate 3 ' ' := rfl
    have hrw : wordStr w = joinSep (List.replicate 3 ' ') (w.map charStr) := rfl
    rw [h3, hrw]
    apply splitOnSep_joinSep 3 (by omega)
    · simp [hw]
    · intro p hp
      obtain ⟨c, hc, rfl⟩ := List.mem_map.mp hp
      exact charStr_good c (hall c hc) 3 (by omega)
  have hmap : mapE letter_decode (w.map charStr) = .ok (w.map (fun c => [c])) :=
    mapE_map_ok charStr letter_decode (fun c => [c]) w
      (fun c hc => letter_decode_charStr c (hall c hc))
  simp [morseword_to_alphabet, hsplit, hmap, joinSep_nil_map_singleton]

theorem translate_to_morse_ok (s : List Char)
    (hpieces : ∀ w ∈ splitOnSep [' '] s, w ≠ [] ∧ ∀ c ∈ w, c ∈ lowerAlnum) :
    translate_to_morse s = .ok (joinSep Morse.WordSpace.to_str
      ((splitOnSep [' '] s).map wordStr)) := by
  have hmap : mapE word_to_morse (splitOnSep [' '] s) =
      .ok ((splitOnSep [' '] s).map wordStr) :=
    mapE_ok_all word_to_morse wordStr _
      (fun w hw => word_to_morse_ok w (hpieces w hw).2)
  simp [translate_to_morse, hmap]

theorem translate_from_morse_enc (ws : List (List Char)) (hne : ws ≠ [])
    (hall : ∀ w ∈ ws, w ≠ [] ∧ ∀ c ∈ w, c ∈ lowerAlnum) :
    translate_from_morse (joinSep Morse.WordSpace.to_str (ws.map wordStr)) =
      .ok (joinSep [' '] ws) := by
  have h7 : Morse.WordSpace.to_str = List.replicate 7 ' ' := rfl
  have hsplit : splitOnSep Morse.WordSpace.to_str
      (joinSep Morse.WordSpace.to_str (ws.map wordStr)) = ws.map wordStr := by
    rw [h7]
    apply splitOnSep_joinSep 7 (by omega)
    · simp [hne]
    · intro p hp
      obtain ⟨w, hw, rfl⟩ := List.mem_map.mp hp
      exact wordStr_good w (hall w hw).1 (hall w hw).2 7 (by omega)
  have hmap : mapE morseword_to_alphabet (ws.map wordStr) = .ok (ws.map id) :=
    mapE_map_ok wordStr morseword_to_alphabet id ws
      (fun w hw => morseword_to_alphabet_ok w (hall w hw).1 (hall w hw).2)
  simp [translate_from_morse, hsplit, hmap, List.map_id]

theorem hasDoubledSpace_cons₂ (a b : Char) (t : List Char) :
    hasDoubledSpace (a :: b :: t) =
      ((a == ' ' && b == ' ') || hasDoubledSpace (b :: t)) := rfl

theorem valid_split_aux :
    ∀ n s, s.length ≤ n → s ≠ [] →
      (∀ c ∈ s, c ∈ lowerAlnum ∨ c = ' ') →
      hasDoubledSpace s = false →
      s.head? ≠ some ' ' → s.getLast? ≠ some ' ' →
      ∀ w ∈ splitOnSep [' '] s, w ≠ [] ∧ ∀ c ∈ w, c ∈ lowerAlnum := by
  intro n
  induction n using Nat.strong_induction_on with
  | _ n ih =>
    intro s hlen hne hchars hdbl hhead hlast
    cases s with
    | nil => exact absurd rfl hne
    | cons c cs =>
      have hc_ne : c ≠ ' ' := fun h => hhead (by rw [h]; rfl)
      have hc_alnum : c ∈ lowerAlnum := by
        rcases hchars c (by simp) with h | h
        · exact h
        · exact absurd h hc_ne
      have hnopre : ¬ ([' '] : List Char) <+: (c :: cs) := by
        intro hp
        obtain ⟨t, ht⟩ := hp
        rw [List.cons_append, List.nil_append] at ht
        injection ht with h1 _
        exact hc_ne h1.symm
      rw [splitOnSep_cons_neg [' '] c cs hnopre]
      cases cs with
      | nil =>
        intro w hw
        have hx : consHead c (splitOnSep [' '] []) = [[c]] := rfl
        rw [hx] at hw
        simp only [List.mem_singleton] at hw
        subst hw
        refine ⟨by simp, ?_⟩
        intro x hx
        simp only [List.mem_singleton] at hx
        subst hx
        exact hc_alnum
      | cons d t =>
        simp only [List.length_cons] at hlen
        by_cases hd : d = ' '
        · subst hd
          have hpre : ([' '] : List Char) <+: (' ' :: t) := ⟨t, rfl⟩
          rw [splitOnSep_cons_pos [' '] ' ' t (by simp) hpre]
          have hdrop : (' ' :: t).drop ([' '] : List Char).length = t := rfl
          rw [hdrop]
          have ht_ne : t ≠ [] := by
            intro h0
            subst h0
            exact hlast (by rfl)
          obtain ⟨e, t', rfl⟩ : ∃ e t', t = e :: t' := by
            cases t with
            | nil => exact absurd rfl ht_ne
            | cons e t' => exact ⟨e, t', rfl⟩
          have h2 : hasDoubledSpace (' ' :: e :: t') = false := by
            rw [hasDoubledSpace_cons₂] at hdbl
            cases hor : hasDoubledSpace (' ' :: e :: t')
            · rfl
            · rw [hor] at hdbl; simp at hdbl
          have h3 : e ≠ ' ' := by
            intro he
            subst he
            rw [hasDoubledSpace_cons₂] at h2
            simp at h2
          have h4 : hasDoubledSpace (e :: t') = false := by
            rw [hasDoubledSpace_cons₂] at h2
            cases hor : hasDoubledSpace (e :: t')
            · rfl
            · rw [hor] at h2; simp at h2
          have hlast2 : (e :: t').getLast? ≠ some ' ' := by
            have hx : (c :: ' ' :: e :: t').getLast? = (e :: t').getLast? := by
              rw [List.getLast?_cons_cons, List.getLast?_cons_cons]
            rw [hx] at hlast
            exact hlast
          have hrec := ih (t'.length + 1)
            (by simp only [List.length_cons] at hlen; omega) (e :: t') (by simp)
            (by simp) (fun x hx => hchars x (by simp [hx])) h4
            (by intro hcontra; exact h3 (by injection hcontra)) hlast2
          intro w hw
          have hcH : consHead c ([] :: splitOnSep [' '] (e :: t')) =
              [c] :: splitOnSep [' '] (e :: t') := rfl
          rw [hcH] at hw
          rcases List.mem_cons.mp hw with rfl | hw'
          · refine ⟨by simp, ?_⟩
            intro x hx
            simp only [List.mem_singleton] at hx
            subst hx
            exact hc_alnum
          · exact hrec w hw'
        · have h4 : hasDoubledSpace (d :: t) = false := by
            rw [hasDoubledSpace_cons₂] at hdbl
            cases hor : hasDoubledSpace (d :: t)
            · rfl
            · rw [hor] at hdbl; simp at hdbl
          have hlast2 : (d :: t).getLast? ≠ some ' ' := by
            have hx : (c :: d :: t).getLast? = (d :: t).getLast? :=
              List.getLast?_cons_cons
            rw [hx] at hlast
            exact hlast
          have hrec := ih (t.length + 1) (by omega) (d :: t) (by simp)
            (by simp) (fun x hx => hchars x (by simp [hx])) h4
            (by intro hcontra; exact hd (by injection hcontra)) hlast2
          obtain ⟨w₀, rest, hsp⟩ : ∃ w₀ rest, splitOnSep [' '] (d :: t) = w₀ :: rest := by
            cases hx : splitOnSep [' '] (d :: t) with
            | nil => exact absurd hx (splitOnSep_ne_nil [' '] (d :: t))
            | cons w₀ rest => exact ⟨w₀, rest, rfl⟩
          rw [hsp, consHead_cons]
          intro w hw
          rcases List.mem_cons.mp hw with rfl | hw'
          · have hw₀ := hrec w₀ (by rw [hsp]; simp)
            refine ⟨by simp, ?_⟩
            intro x hx
            rcases List.mem_cons.mp hx with rfl | hx'
            · exact hc_alnum
            · exact hw₀.2 x hx'
          · exact hrec w (by rw [hsp]; simp [hw'])

theorem valid_split (s : List Char) (hne : s ≠ []) (hv : validMsg s) :
    ∀ w ∈ splitOnSep [' '] s, w ≠ [] ∧ ∀ c ∈ w, c ∈ lowerAlnum :=
  valid_split_aux s.length s le_rfl hne hv.1 hv.2.2.2 hv.2.1 hv.2.2.1

/-! Failure-shape lemmas: which error each stage can produce. -/

theorem lookup_by_char_shape (c : Char) :
    (∃ b, lookup_by_char c = .ok b) ∨ lookup_by_char c = .error .UnknownCharacter := by
  unfold lookup_by_char
  cases h : ((CHAR_MORSE_MAP.filter (fun k => k.1 == c)).map Prod.snd).head? with
  | none => exact Or.inr rfl
  | some seq => exact Or.inl ⟨seq, rfl⟩

theorem lookup_by_char_unknown (c : Char) (h1 : c ∉ lowerAlnum) (h2 : c ≠ ' ') :
    lookup_by_char c = .error .UnknownCharacter := by
  have hfilter : CHAR_MORSE_MAP.filter (fun k => k.1 == c) = [] := by
    rw [List.filter_eq_nil_iff]
    intro e he hbeq
    have heq : e.1 = c := beq_iff_eq.mp hbeq
    have hmem : e.1 ∈ supported_chars := List.mem_map_of_mem Prod.fst he
    rw [heq] at hmem
    rcases supported_chars_class c hmem with h | h
    · exact h1 h
    · exact h2 h
  unfold lookup_by_char
  rw [hfilter]
  rfl

theorem word_to_morse_shape (w : List Char) :
    (∃ b, word_to_morse w = .ok b) ∨ word_to_morse w = .error .UnknownCharacter := by
  unfold word_to_morse
  rcases mapE_shape lookup_by_char .UnknownCharacter w
    (fun a _ => lookup_by_char_shape a) with ⟨bs, hbs⟩ | hbs
  · rw [hbs]; exact Or.inl ⟨_, rfl⟩
  · rw [hbs]; exact Or.inr rfl

theorem word_to_morse_unknown (w : List Char) (c : Char) (hc : c ∈ w)
    (h1 : c ∉ lowerAlnum) (h2 : c ≠ ' ') :
    word_to_morse w = .error .UnknownCharacter := by
  have hmap : mapE lookup_by_char w = .error .UnknownCharacter :=
    mapE_first_error lookup_by_char .UnknownCharacter w
      (fun a _ => lookup_by_char_shape a)
      ⟨c, hc, lookup_by_char_unknown c h1 h2⟩
  unfold word_to_morse
  rw [hmap]

theorem mem_splitOnSep_space (s : List Char) (c : Char) (hc : c ∈ s) (hcs : c ≠ ' ') :
    ∃ w ∈ splitOnSep [' '] s, c ∈ w := by
  have hjoin : joinSep [' '] (splitOnSep [' '] s) = s :=
    joinSep_splitOnSep [' '] (by simp) s.length s le_rfl
  rw [← hjoin] at hc
  rcases mem_joinSep [' '] (splitOnSep [' '] s) c hc with ⟨p, hp, hcp⟩ | hsep
  · exact ⟨p, hp, hcp⟩
  · simp at hsep; exact absurd hsep hcs

theorem letter_decode_eq (l : List Char) (arr : List Morse)
    (h : from_morse_str_to_morse_array l = .ok arr) :
    letter_decode l =
      match from_morse_array_to_char arr with
      | .error e => .error e
      | .ok c => .ok [c] := by
  unfold letter_decode
  rw [h]

theorem letter_decode_shape (l : List Char)
    (hp : ∃ arr, from_morse_str_to_morse_array l = .ok arr) :
    (∃ b, letter_decode l = .ok b) ∨ letter_decode l = .error .UnknownSequence := by
  obtain ⟨arr, harr⟩ := hp
  rw [letter_decode_eq l arr harr]
  unfold from_morse_array_to_char
  cases h : ((CHAR_MORSE_MAP.filter (fun m => m.2 == arr)).map Prod.fst).head? with
  | none => exact Or.inr rfl
  | some ch => exact Or.inl ⟨[ch], rfl⟩

theorem letter_decode_shape_of_parse (l : List Char)
    (h : isOkE (from_morse_str_to_morse_array l) = true) :
    (∃ b, letter_decode l = .ok b) ∨ letter_decode l = .error .UnknownSequence := by
  apply letter_decode_shape
  cases hx : from_morse_str_to_morse_array l with
  | ok arr => exact ⟨arr, rfl⟩
  | error e => rw [hx] at h; simp [isOkE] at h

theorem morseword_shape (w : List Char)
    (hparse : ∀ l ∈ splitOnSep Morse.LetterSpace.to_str w,
      isOkE (from_morse_str_to_morse_array l) = true) :
    (∃ b, morseword_to_alphabet w = .ok b) ∨
      morseword_to_alphabet w = .error .UnknownSequence := by
  unfold morseword_to_alphabet
  rcases mapE_shape letter_decode .UnknownSequence _
    (fun a ha => letter_decode_shape_of_parse a (hparse a ha)) with ⟨bs, hbs⟩ | hbs
  · rw [hbs]; exact Or.inl ⟨_, rfl⟩
  · rw [hbs]; exact Or.inr rfl

/-! The claims. -/

/-- C1 counterexample: the empty string is composed only of the allowed
characters and has no leading, trailing or doubled space, encodes to the
empty string, but decoding that output fails, so the round-trip claim as
stated is false at the empty string. -/
theorem C1_empty_counterexample :
    validMsg [] ∧
      Except.bind (translate_to_morse []) translate_from_morse ≠
        .ok ([] : List Char) :=
  ⟨by decide, by decide⟩

/-- C1 (amended): for every nonempty string of lowercase letters, digits and
single spaces (no leading, trailing or doubled space), encoding succeeds and
decoding the encoded form returns the original string. -/
theorem C1_roundtrip (s : List Char) (hv : validMsg s) (hne : s ≠ []) :
    ∃ m, translate_to_morse s = .ok m ∧ translate_from_morse m = .ok s := by
  have hpieces := valid_split s hne hv
  have hwsne := splitOnSep_ne_nil [' '] s
  have henc := translate_to_morse_ok s hpieces
  refine ⟨_, henc, ?_⟩
  rw [translate_from_morse_enc (splitOnSep [' '] s) hwsne hpieces,
    joinSep_splitOnSep [' '] (by simp) s.length s le_rfl]

/-- C1 witness: the round-trip theorem applied to the concrete string
`"a b"`. -/
theorem C1_roundtrip_witness :
    validMsg ['a', ' ', 'b'] ∧ ['a', ' ', 'b'] ≠ [] ∧
      ∃ m, translate_to_morse ['a', ' ', 'b'] = .ok m ∧
        translate_from_morse m = .ok ['a', ' ', 'b'] :=
  ⟨by decide, by decide, C1_roundtrip ['a', ' ', 'b'] (by decide) (by decide)⟩

/-- C2: decoding the empty string does not return the empty string; the empty
letter token reaches the `unreachable!` arm of `Morse::from_str`, which is the
`InvalidSymbol` failure, contradicting the spec's `decode("") = ""`. -/
theorem C2_empty_decode : translate_from_morse [] = .error .InvalidSymbol := by
  decide

/-- C3: any input containing a character outside the 37-character set makes
encoding fail with `UnknownCharacter`; the character is never dropped or
substituted. -/
theorem C3_unknown_char (msg : List Char) (c : Char) (hc : c ∈ msg)
    (h1 : c ∉ lowerAlnum) (h2 : c ≠ ' ') :
    translate_to_morse msg = .error .UnknownCharacter := by
  obtain ⟨w, hw, hcw⟩ := mem_splitOnSep_space msg c hc h2
  have hmap : mapE word_to_morse (splitOnSep [' '] msg) = .error .UnknownCharacter :=
    mapE_first_error word_to_morse .UnknownCharacter _
      (fun a _ => word_to_morse_shape a)
      ⟨w, hw, word_to_morse_unknown w c hcw h1 h2⟩
  unfold translate_to_morse
  rw [hmap]

/-- C3 witness: the theorem applied to the input `"a!"` and its unsupported
character `'!'`. -/
theorem C3_unknown_char_witness :
    '!' ∈ ['a', '!'] ∧ '!' ∉ lowerAlnum ∧ '!' ≠ ' ' ∧
      translate_to_morse ['a', '!'] = .error .UnknownCharacter :=
  ⟨by decide, by decide, by decide,
    C3_unknown_char ['a', '!'] '!' (by decide) (by decide) (by decide)⟩

/-- C4 counterexample: in the decode input `"··   ― ― ― ―"` the second
letter's pulse sequence (four long marks) matches no table entry, yet decoding
fails with `InvalidSymbol` (raised first by the unparsable token `"··"`), not
with `UnknownSequence`; so the claim as stated is false at this input. -/
theorem C4_mixed_counterexample :
    (∃ w ∈ splitOnSep Morse.WordSpace.to_str
        ['·', '·', ' ', ' ', ' ', '―', ' ', '―', ' ', '―', ' ', '―'],
      ∃ l ∈ splitOnSep Morse.LetterSpace.to_str w,
        Except.bind (from_morse_str_to_morse_array l) from_morse_array_to_char =
          .error .UnknownSequence) ∧
      translate_from_morse
        ['·', '·', ' ', ' ', ' ', '―', ' ', '―', ' ', '―', ' ', '―'] =
        .error .InvalidSymbol := by
  constructor
  · exact ⟨['·', '·', ' ', ' ', ' ', '―', ' ', '―', ' ', '―', ' ', '―'], by decide,
      ['―', ' ', '―', ' ', '―', ' ', '―'], by decide, by decide⟩
  · decide

/-- C4 (amended): if every letter token of the decode input parses as a pulse
sequence and some letter's pulse sequence matches no code-table entry, then
decoding fails with `UnknownSequence`. -/
theorem C4_unknown_sequence (msg : List Char)
    (hparse : ∀ w ∈ splitOnSep Morse.WordSpace.to_str msg,
      ∀ l ∈ splitOnSep Morse.LetterSpace.to_str w,
        isOkE (from_morse_str_to_morse_array l) = true)
    (hbad : ∃ w ∈ splitOnSep Morse.WordSpace.to_str msg,
      ∃ l ∈ splitOnSep Morse.LetterSpace.to_str w,
        letter_decode l = .error .UnknownSequence) :
    translate_from_morse msg = .error .UnknownSequence := by
  obtain ⟨w, hw, l, hl, hld⟩ := hbad
  have hwordbad : morseword_to_alphabet w = .error .UnknownSequence := by
    have hmap : mapE letter_decode (splitOnSep Morse.LetterSpace.to_str w) =
        .error .UnknownSequence :=
      mapE_first_error letter_decode .UnknownSequence _
        (fun a ha => letter_decode_shape_of_parse a (hparse w hw a ha))
        ⟨l, hl, hld⟩
    unfold morseword_to_alphabet
    rw [hmap]
  have hmapw : mapE morseword_to_alphabet (splitOnSep Morse.WordSpace.to_str msg) =
      .error .UnknownSequence :=
    mapE_first_error morseword_to_alphabet .UnknownSequence _
      (fun a ha => morseword_shape a (hparse a ha))
      ⟨w, hw, hwordbad⟩
  unfold translate_from_morse
  rw [hmapw]

/-- C4 witness: the theorem applied to the decode input `"― ― ― ―"`, four
long marks, which parse but match no table entry. -/
theorem C4_unknown_sequence_witness :
    translate_from_morse ['―', ' ', '―', ' ', '―', ' ', '―'] =
      .error .UnknownSequence :=
  C4_unknown_sequence ['―', ' ', '―', ' ', '―', ' ', '―'] (by decide)
    ⟨['―', ' ', '―', ' ', '―', ' ', '―'], by decide,
      ['―', ' ', '―', ' ', '―', ' ', '―'], by decide, by decide⟩

/-- C5 counterexample: the entry for `' '` pairs it with the sequence
`[WordSpace]`, which is not drawn from ShortMark/LongMark, so the claim that
every entry's sequence draws only from those two marks is false. -/
theorem C5_space_counterexample :
    (' ', ([Morse.WordSpace] : List Morse)) ∈ CHAR_MORSE_MAP ∧
      ¬ (Morse.WordSpace = Morse.Dit ∨ Morse.WordSpace = Morse.Dah) :=
  ⟨by decide, by decide⟩

/-- C5 (amended): every table entry's sequence has length between 1 and 5;
every entry other than the space entry draws only from ShortMark and LongMark;
the space entry's sequence is exactly `[WordSpace]`. -/
theorem C5_table_shape :
    ∀ e ∈ CHAR_MORSE_MAP,
      (1 ≤ e.2.length ∧ e.2.length ≤ 5) ∧
      (e.1 = ' ' → e.2 = [Morse.WordSpace]) ∧
      (e.1 ≠ ' ' → ∀ m ∈ e.2, m = Morse.Dit ∨ m = Morse.Dah) := by decide

/-- C5 witness: the amended table-shape theorem applied to the entry for
`'a'`. -/
theorem C5_table_shape_witness :
    ('a', ([Morse.Dit, Morse.Dah] : List Morse)) ∈ CHAR_MORSE_MAP ∧
      ((1 ≤ ([Morse.Dit, Morse.Dah] : List Morse).length ∧
          ([Morse.Dit, Morse.Dah] : List Morse).length ≤ 5) ∧
        (('a' : Char) = ' ' →
          ([Morse.Dit, Morse.Dah] : List Morse) = [Morse.WordSpace]) ∧
        (('a' : Char) ≠ ' ' →
          ∀ m ∈ ([Morse.Dit, Morse.Dah] : List Morse),
            m = Morse.Dit ∨ m = Morse.Dah)) :=
  ⟨by decide, C5_table_shape ('a', [Morse.Dit, Morse.Dah]) (by decide)⟩

/-- C6: for each of the 37 supported characters, the character lookup succeeds
and looking the resulting sequence up by sequence returns the character. -/
theorem C6_lookup_roundtrip :
    ∀ c ∈ supported_chars,
      Except.bind (lookup_by_char c) from_morse_array_to_char = .ok c := by decide

/-- C6 witness: the lookup round-trip theorem applied to `'e'`. -/
theorem C6_lookup_roundtrip_witness :
    'e' ∈ supported_chars ∧
      Except.bind (lookup_by_char 'e') from_morse_array_to_char = .ok 'e' :=
  ⟨by decide, C6_lookup_roundtrip 'e' (by decide)⟩

/-- C7: the code table is injective: distinct supported characters carry
distinct pulse sequences. -/
theorem C7_injective :
    ∀ e₁ ∈ CHAR_MORSE_MAP, ∀ e₂ ∈ CHAR_MORSE_MAP, e₁.1 ≠ e₂.1 → e₁.2 ≠ e₂.2 := by
  decide

/-- C7 witness: injectivity applied to the entries for `'a'` and `'t'`. -/
theorem C7_injective_witness :
    ('a', ([Morse.Dit, Morse.Dah] : List Morse)) ∈ CHAR_MORSE_MAP ∧
      ('t', ([Morse.Dah] : List Morse)) ∈ CHAR_MORSE_MAP ∧
      ('a' : Char) ≠ 't' ∧
      ([Morse.Dit, Morse.Dah] : List Morse) ≠ [Morse.Dah] :=
  ⟨by decide, by decide, by decide,
    C7_injective ('a', [Morse.Dit, Morse.Dah]) (by decide)
      ('t', [Morse.Dah]) (by decide) (by decide)⟩

/-- C8: for each of the five pulse primitives, parsing its rendering returns
the primitive itself. -/
theorem C8_parse_render (p : Morse) : Morse.from_str (Morse.to_str p) = .ok p := by
  cases p <;> rfl

/-- C9: encoding `"sos"` yields exactly the string
`"· · ·   ― ― ―   · · ·"`: pulses joined by the UnitGap rendering, letters by
the LetterGap rendering. -/
theorem C9_sos :
    translate_to_morse ['s', 'o', 's'] = .ok "· · ·   ― ― ―   · · ·".toList := by
  decide

/-- C10: the input `"a  b"` passes the encode-side character validation and
contains a doubled space; encoding succeeds, but decoding the encoded output
fails (the empty letter token between the two adjacent WordGap renderings
parses as no pulse primitive). -/
theorem C10_doubled_space :
    (∀ c ∈ ['a', ' ', ' ', 'b'], c ∈ lowerAlnum ∨ c = ' ') ∧
      hasDoubledSpace ['a', ' ', ' ', 'b'] = true ∧
      isOkE (translate_to_morse ['a', ' ', ' ', 'b']) = true ∧
      Except.bind (translate_to_morse ['a', ' ', ' ', 'b']) translate_from_morse =
        .error .InvalidSymbol := by decide
